import Mathlib

/-!
Shallow embedding of the rapnet data-preparation code
(`src/utils/data_loader.py` and `src/test.py`): corpus loading, character
vocabulary construction, encoding, batch slicing, and the batch generator.
Python exceptions are modelled by an explicit error type and fallible
steps return `Except`.  Machine arrays become `List`s; the numpy
`reshape`/`split` calls are modelled row-major exactly as numpy performs
them.
-/

deriving instance DecidableEq for Except

namespace Rapnet

/-- Python exceptions that the embedded code can raise. -/
inductive PyExc where
  | nameError (n : String)
  | typeError (msg : String)
  | valueError (msg : String)
  | assertionError (msg : String)
  | zeroDivisionError
  | fileNotFoundError
  | fileExistsError
  deriving DecidableEq, Repr

/-! ## Vocabulary construction

Embeds `sorted(collections.Counter(data).items(), key=lambda x: -x[1])`
(`src/test.py` line 13; the same expression is intended at
`src/utils/data_loader.py` line 46).  A Python `Counter` iterates its
keys in first-insertion order, i.e. order of first appearance in `data`,
each paired with its multiplicity; `sorted` with key `-count` is a
stable sort, modelled by `List.insertionSort` (also stable) with the
comparison `b.2 ≤ a.2`. -/

/-- Accumulator pass keeping the first occurrence of every character:
characters already `seen` are skipped, new ones are emitted and
recorded. -/
def firstUniquesAux (seen : List Char) : List Char → List Char
  | [] => []
  | c :: rest =>
      if c ∈ seen then firstUniquesAux seen rest
      else c :: firstUniquesAux (c :: seen) rest

/-- Distinct characters of `data` in order of first appearance
(the key order of `collections.Counter(data)`). -/
def firstUniques (data : List Char) : List Char :=
  firstUniquesAux [] data

/-- The pairs produced by `collections.Counter(data).items()`:
each distinct character with its number of occurrences, in
first-appearance order. -/
def counterItems (data : List Char) : List (Char × Nat) :=
  (firstUniques data).map (fun c => (c, data.count c))

/-- The order `sorted(..., key=lambda x: -x[1])` sorts by: `a` may come
before `b` exactly when the count of `b` does not exceed the count of
`a`. -/
def countLE (a b : Char × Nat) : Prop := b.2 ≤ a.2

instance : DecidableRel countLE := fun a b => Nat.decLe b.2 a.2

instance : IsTotal (Char × Nat) countLE :=
  ⟨fun a b => (Nat.le_total b.2 a.2).elim Or.inl Or.inr⟩

instance : IsTrans (Char × Nat) countLE :=
  ⟨fun _ _ _ hab hbc => Nat.le_trans hbc hab⟩

/-- Embeds `sorted(collections.Counter(data).items(), key=lambda x: -x[1])`:
a stable sort of the counter items into descending order of count.
Python `sorted` is a stable sort; a stable sort of a list under a total
preorder is unique, so the (stable) insertion sort is extensionally the
same function. -/
def count_pairs (data : List Char) : List (Char × Nat) :=
  (counterItems data).insertionSort countLE

/-- The vocabulary data computed at `src/test.py` lines 13-19:
`chars, _ = zip(*count_pairs)`, `vocabulary_size = len(chars)`,
`vocabulary = dict(zip(chars, range(len(chars))))`. -/
structure Vocab where
  chars : List Char
  vocabulary_size : Nat
  vocabulary : List (Char × Nat)
  deriving Repr, DecidableEq

/-- Embeds `src/test.py` lines 13-19.  When `count_pairs` is empty
(empty corpus), the unpacking `chars, _ = zip(*count_pairs)` receives
zero tuples from `zip()` and raises `ValueError`; otherwise `zip` of the
pairs yields exactly the tuple of characters and the tuple of counts,
and the vocabulary dict assigns each character its index. -/
def buildVocabulary (data : List Char) : Except PyExc Vocab :=
  match count_pairs data with
  | [] => Except.error (PyExc.valueError "not enough values to unpack (expected 2, got 0)")
  | _ :: _ =>
      let chars := (count_pairs data).map Prod.fst
      Except.ok
        { chars := chars
          vocabulary_size := chars.length
          vocabulary := chars.zip (List.range chars.length) }

/-- Python `vocabulary.get(c)`: the code of `c`, or `None` when absent.
The dict built at line 19 has pairwise-distinct keys (proved below), so
first-match lookup in the association list is faithful. -/
def dictGet (vocab : List (Char × Nat)) (c : Char) : Option Nat :=
  (vocab.find? (fun p => p.1 == c)).map Prod.snd

/-- Inverse vocabulary lookup: the character carrying code `n`, if any. -/
def inverseGet (vocab : List (Char × Nat)) (n : Nat) : Option Char :=
  (vocab.find? (fun p => p.2 == n)).map Prod.fst

/-- Embeds `np.array(list(map(vocabulary.get, data)))`
(`src/test.py` line 22, `src/utils/data_loader.py` line 55):
`dict.get` yields `None` (not an exception) for a character absent from
the vocabulary, so the result is a list of optional codes. -/
def encode (vocab : List (Char × Nat)) (data : List Char) : List (Option Nat) :=
  data.map (dictGet vocab)

/-! ## Batch construction

Embeds `src/test.py` lines 25-38 (`src/utils/data_loader.py`
lines 58-76). -/

/-- Row-major reshaping: `rows` consecutive chunks of `cols` elements
each (the semantics of numpy `reshape(rows, cols)` on a length
`rows * cols` array). -/
def toRows (cols : Nat) : Nat → List α → List (List α)
  | 0, _ => []
  | r + 1, xs => xs.take cols :: toRows cols r (xs.drop cols)

/-- Embeds `inputs.reshape(batch_size, -1)`: numpy infers the column
count as `len / rows` and lays the data out row-major. -/
def reshapeRows (rows : Nat) (xs : List α) : List (List α) :=
  toRows (xs.length / rows) rows xs

/-- Embeds `np.split(grid, k, 1)`: `k` consecutive column blocks, each
of width `columns / k`. -/
def npSplitCols (k : Nat) (grid : List (List α)) : List (List (List α)) :=
  let width := (grid.headD []).length / k
  (List.range k).map (fun b => grid.map (fun row => (row.drop (b * width)).take width))

/-- Embeds `targets = np.copy(inputs); targets[:-1] = inputs[1:];
targets[-1] = inputs[0]` (`src/test.py` lines 33-36): every element is
replaced by its successor and the final element wraps around to the
first, i.e. a left rotation by one. -/
def mkTargets (inputs : List α) : List α :=
  inputs.drop 1 ++ inputs.take 1

/-- The assertion message of `src/utils/data_loader.py` line 61 and
`src/test.py` line 57, raised when no batch can be formed. -/
def insufficientMsg : String :=
  "Unable to generate batches. Reduce batch_size or sequence_length."

/-- The state produced by the batch-construction code:
`batches_size`, the truncated `tensor_data`, and the two batch lists. -/
structure Prepared (α : Type) where
  batch_size : Nat
  sequence_length : Nat
  batches_size : Nat
  tensor_data : List α
  input_batches : List (List (List α))
  target_batches : List (List (List α))
  deriving DecidableEq, Repr

/-- Embeds `src/test.py` lines 25-38: computes
`batches_size = int(len / (batch_size * sequence_length))` (Python
raises `ZeroDivisionError` when the divisor is zero; for the sizes at
hand `int` of the true division is the floor), asserts `batches_size`
is nonzero with the fixed message of `src/utils/data_loader.py`
line 61, truncates the sequence, builds the shifted target sequence and
splits both into `batches_size` blocks of shape
`(batch_size, sequence_length)`. -/
def computeBatches (seq : List α) (batch_size sequence_length : Nat) :
    Except PyExc (Prepared α) :=
  if batch_size * sequence_length = 0 then
    Except.error PyExc.zeroDivisionError
  else
    let batches_size := seq.length / (batch_size * sequence_length)
    if batches_size = 0 then
      Except.error (PyExc.assertionError insufficientMsg)
    else
      let tensor_data := seq.take (batches_size * batch_size * sequence_length)
      Except.ok
        { batch_size := batch_size
          sequence_length := sequence_length
          batches_size := batches_size
          tensor_data := tensor_data
          input_batches := npSplitCols batches_size (reshapeRows batch_size tensor_data)
          target_batches := npSplitCols batches_size (reshapeRows batch_size (mkTargets tensor_data)) }

/-! ## The batch generator

Embeds `DataLoader.data_generator` (`src/utils/data_loader.py`
lines 78-89): a generator over
`zip(self.input_batches, self.target_batches)`.  A traversal is
modelled by a cursor advancing through the zipped list; a fresh
generator starts at cursor `0`. -/

/-- The zipped sequence `zip(self.input_batches, self.target_batches)`
that `data_generator` iterates. -/
def pairsOf (p : Prepared α) : List (List (List α) × List (List α)) :=
  p.input_batches.zip p.target_batches

/-- A generator over a prepared state: the read-only prepared data plus
the traversal cursor. -/
structure GenCursor (α : Type) where
  prepared : Prepared α
  pointer : Nat

/-- One step of the generator: yield the pair at the cursor and advance,
or stop when the zipped list is exhausted. -/
def genNext (g : GenCursor α) :
    Option ((List (List α) × List (List α)) × GenCursor α) :=
  match (pairsOf g.prepared)[g.pointer]? with
  | some pair => some (pair, { g with pointer := g.pointer + 1 })
  | none => none

/-- Resetting a generator: the cursor returns to `0`; the prepared data
is untouched. -/
def resetPointer (g : GenCursor α) : GenCursor α :=
  { g with pointer := 0 }

/-- Every item a generator standing at its cursor will still yield:
the remaining suffix of the zipped batch list. -/
def runTraversal (g : GenCursor α) : List (List (List α) × List (List α)) :=
  (pairsOf g.prepared).drop g.pointer

/-- A fresh generator, as obtained from calling `data_generator()`. -/
def freshGen (p : Prepared α) : GenCursor α :=
  { prepared := p, pointer := 0 }

/-- Concatenation of a list of equal-height batch matrices along the
column axis, in batch order — the reconstruction operation named by the
specification ("concatenating all input batches in order"); it is the
inverse of the column split performed by the code.  Row `r` of the
result strings together row `r` of every batch. -/
def concatCols (rows : Nat) (batches : List (List (List α))) : List (List α) :=
  (List.range rows).map (fun r => (batches.map (fun b => b.getD r [])).flatten)

/-- The prepared state for the corpus scenario of the specification:
ten characters encoded as `[0, ..., 9]`, batch_size 1,
sequence_length 5, giving two batches.  Used as the concrete witness
input. -/
def exPrepared : Prepared Nat :=
  { batch_size := 1
    sequence_length := 5
    batches_size := 2
    tensor_data := [0, 1, 2, 3, 4, 5, 6, 7, 8, 9]
    input_batches := [[[0, 1, 2, 3, 4]], [[5, 6, 7, 8, 9]]]
    target_batches := [[[1, 2, 3, 4, 5]], [[6, 7, 8, 9, 0]]] }

/-- The vocabulary the code builds from the two-character corpus "ab":
both characters occur once, the stable sort keeps first-appearance
order, and the codes are assigned in order.  Used as a concrete witness
input. -/
def vocabEx : Vocab :=
  { chars := ['a', 'b']
    vocabulary_size := 2
    vocabulary := [('a', 0), ('b', 1)] }

/-! ## Dataset loading

Embeds `DataLoader.__load_dataset` (`src/utils/data_loader.py`
lines 27-40).  The filesystem is a partial map from paths to contents;
`codecs.open(path, "r")` on a missing path raises
`FileNotFoundError`.  The `try` block catches only `FileExistsError`
(line 38), logging and calling `exit(1)` in that case; any other
exception propagates unhandled. -/

/-- Outcome of running `__load_dataset`. -/
inductive LoadOutcome where
  | loaded (data : List Char)
  | exited (code : Nat) (msg : String)
  | raised (e : PyExc)
  deriving DecidableEq, Repr

/-- Embeds `codecs.open(data_dir, "r", encoding="utf-8")` followed by
`f.read()`: the contents when the path exists, `FileNotFoundError`
otherwise. -/
def codecsOpenRead (fs : String → Option (List Char)) (path : String) :
    Except PyExc (List Char) :=
  match fs path with
  | some contents => Except.ok contents
  | none => Except.error PyExc.fileNotFoundError

/-- Embeds `src/utils/data_loader.py` lines 34-40: the `except` clause
names `FileExistsError`, so only that exception reaches the
log-and-exit handler; every other exception propagates. -/
def loadDataset (fs : String → Option (List Char)) (data_dir : String) :
    LoadOutcome :=
  match codecsOpenRead fs data_dir with
  | Except.ok contents => LoadOutcome.loaded contents
  | Except.error e =>
      if e = PyExc.fileExistsError then
        LoadOutcome.exited 1 ("No dataset found at " ++ data_dir)
      else LoadOutcome.raised e

/-! ## The DataLoader class as written

`DataLoader.__prepare_data` (`src/utils/data_loader.py` line 46) reads
`sorted(collections.Counter(self.data),items(), key=lambda x: -x[1])`:
a comma where a dot was intended, so the bare name `items` is evaluated
as the second positional argument of `sorted`.  Python resolves a bare
name against the local, enclosing, global and builtin scopes. -/

/-- The names resolvable inside `__prepare_data` at line 46: the local
`self`, the module globals of `data_loader.py` (its imports and the
class), and the builtins the module uses.  `items` is none of these:
it exists only as a *method* of dict/Counter objects, never as a bare
name. -/
def prepareDataScopeNames : List String :=
  ["self", "codecs", "os", "collections", "np", "logging", "DataLoader",
   "sorted", "dict", "zip", "len", "range", "list", "map", "int", "exit"]

/-- Python bare-name resolution: a name outside every scope raises
`NameError`. -/
def resolveName (n : String) : Except PyExc Unit :=
  if n ∈ prepareDataScopeNames then Except.ok ()
  else Except.error (PyExc.nameError n)

/-- Embeds `DataLoader.__prepare_data` as written
(`src/utils/data_loader.py` line 46 onward).  Evaluating the argument
list of `sorted` evaluates the bare name `items`, which raises
`NameError`; were the name somehow bound, `sorted` would still reject
its two positional arguments with a `TypeError`.  Either way line 46
raises before any later line runs. -/
def DataLoader.prepareData (data : List Char) (batch_size sequence_length : Nat) :
    Except PyExc (Prepared Nat) :=
  match resolveName "items" with
  | Except.error e => Except.error e
  | Except.ok _ =>
      Except.error (PyExc.typeError "sorted expected at most 1 argument, got 2")

/-- Outcome of running `DataLoader.__init__`. -/
inductive InitOutcome where
  | ready (p : Prepared Nat)
  | exited (code : Nat) (msg : String)
  | raised (e : PyExc)

/-- Embeds `DataLoader.__init__` (`src/utils/data_loader.py`
lines 9-25): load the dataset, store the sizes, then run
`__prepare_data`. -/
def DataLoader.init (fs : String → Option (List Char)) (data_dir : String)
    (batch_size sequence_length : Nat) : InitOutcome :=
  match loadDataset fs data_dir with
  | LoadOutcome.loaded data =>
      match DataLoader.prepareData data batch_size sequence_length with
      | Except.ok p => InitOutcome.ready p
      | Except.error e => InitOutcome.raised e
  | LoadOutcome.exited c m => InitOutcome.exited c m
  | LoadOutcome.raised e => InitOutcome.raised e

/-! ## Theorems -/

/-- C1: for every corpus and every (batch_size, sequence_length),
`DataLoader.__prepare_data` raises an unhandled `NameError` at the
vocabulary-construction step (the bare name `items` at line 46 is
undefined), so `DataLoader.__init__` never returns normally and no
`DataLoader` instance ever reaches the Prepared state. -/
theorem dataLoader_never_prepared :
    (∀ (data : List Char) (batch_size sequence_length : Nat),
      DataLoader.prepareData data batch_size sequence_length =
        Except.error (PyExc.nameError "items")) ∧
    (∀ (fs : String → Option (List Char)) (data_dir : String)
       (batch_size sequence_length : Nat) (p : Prepared Nat),
      DataLoader.init fs data_dir batch_size sequence_length ≠ InitOutcome.ready p) := by
  have hprep : ∀ (data : List Char) (batch_size sequence_length : Nat),
      DataLoader.prepareData data batch_size sequence_length =
        Except.error (PyExc.nameError "items") := by
    intro data batch_size sequence_length
    have : resolveName "items" = Except.error (PyExc.nameError "items") := by
      simp [resolveName, prepareDataScopeNames]
    simp [DataLoader.prepareData, this]
  refine ⟨hprep, ?_⟩
  intro fs data_dir batch_size sequence_length p
  unfold DataLoader.init
  cases h : loadDataset fs data_dir with
  | loaded data => simp [hprep]
  | exited c m => simp
  | raised e => simp

/-- C6 (code bug): when the path does not exist, `codecs.open` raises
`FileNotFoundError`, which the `except FileExistsError` clause of
`__load_dataset` does not catch, so the exception propagates unhandled
and the intended log-and-exit handler never runs. -/
theorem loadDataset_missing_file_unhandled
    (fs : String → Option (List Char)) (path : String) (h : fs path = none) :
    loadDataset fs path = LoadOutcome.raised PyExc.fileNotFoundError ∧
    ∀ (c : Nat) (m : String), loadDataset fs path ≠ LoadOutcome.exited c m := by
  have : loadDataset fs path = LoadOutcome.raised PyExc.fileNotFoundError := by
    simp [loadDataset, codecsOpenRead, h]
  exact ⟨this, fun c m => by rw [this]; simp⟩

/-- Witness for `loadDataset_missing_file_unhandled` at the empty
filesystem and the path used by the repository. -/
theorem loadDataset_missing_file_unhandled_witness :
    loadDataset (fun _ => none) "data/kanye" =
      LoadOutcome.raised PyExc.fileNotFoundError ∧
    ∀ (c : Nat) (m : String),
      loadDataset (fun _ => none) "data/kanye" ≠ LoadOutcome.exited c m :=
  loadDataset_missing_file_unhandled (fun _ => none) "data/kanye" rfl

/-- C5 (amended): whenever the corpus is too short for a single batch
(`batches_size = 0`) with a positive configuration, the batch
computation raises an error surfaced to the caller, but its message is
the fixed string of line 61, which names no numeric values. -/
theorem computeBatches_insufficient (seq : List Nat)
    (batch_size sequence_length : Nat)
    (hbs : 0 < batch_size) (hsl : 0 < sequence_length)
    (h : seq.length / (batch_size * sequence_length) = 0) :
    computeBatches seq batch_size sequence_length =
      Except.error (PyExc.assertionError insufficientMsg) := by
  have hne : ¬ batch_size * sequence_length = 0 := by positivity
  simp [computeBatches, hne, h]

/-- Witness for `computeBatches_insufficient`: the boundary scenario of
the specification, a corpus of length 4 with batch_size 2 and
sequence_length 5. -/
theorem computeBatches_insufficient_witness :
    0 < 2 ∧ 0 < 5 ∧ ([0, 1, 2, 3] : List Nat).length / (2 * 5) = 0 ∧
    computeBatches ([0, 1, 2, 3] : List Nat) 2 5 =
      Except.error (PyExc.assertionError insufficientMsg) :=
  ⟨by decide, by decide, by decide,
    computeBatches_insufficient [0, 1, 2, 3] 2 5 (by decide) (by decide) (by decide)⟩

/-- C5 (counterexample): at the boundary scenario the raised message is
the fixed string; it contains no digit at all, so it does not identify
the offending batch_size (2), sequence_length (5) or corpus length (4). -/
theorem computeBatches_message_lacks_values :
    computeBatches ([0, 1, 2, 3] : List Nat) 2 5 =
      Except.error (PyExc.assertionError insufficientMsg) ∧
    insufficientMsg.toList.all (fun c => ! c.isDigit) = true ∧
    ¬ ((Nat.repr 2).toList <:+: insufficientMsg.toList) ∧
    ¬ ((Nat.repr 5).toList <:+: insufficientMsg.toList) ∧
    ¬ ((Nat.repr 4).toList <:+: insufficientMsg.toList) := by
  refine ⟨by decide, by decide, by decide, by decide, by decide⟩

/-- C9 (counterexample): on the empty corpus, `build_vocabulary` does
not return an empty vocabulary: the unpacking
`chars, _ = zip(*count_pairs)` receives zero values and raises
`ValueError`. -/
theorem buildVocabulary_empty_raises :
    buildVocabulary [] =
      Except.error (PyExc.valueError "not enough values to unpack (expected 2, got 0)") := by
  rfl

/-- On a nonempty corpus the sorted counter-item list is nonempty. -/
theorem count_pairs_ne_nil {data : List Char} (h : data ≠ []) :
    count_pairs data ≠ [] := by
  obtain ⟨c, rest, rfl⟩ := List.exists_cons_of_ne_nil h
  have hperm := List.perm_insertionSort countLE (counterItems (c :: rest))
  intro hnil
  rw [count_pairs] at hnil
  rw [hnil] at hperm
  have hlen := hperm.length_eq
  simp [counterItems, firstUniques, firstUniquesAux] at hlen

/-- On a nonempty corpus the unpacking succeeds and `build_vocabulary`
returns the vocabulary built from the sorted character list. -/
theorem buildVocabulary_eq_ok {data : List Char} (h : data ≠ []) :
    buildVocabulary data = Except.ok
      { chars := (count_pairs data).map Prod.fst
        vocabulary_size := ((count_pairs data).map Prod.fst).length
        vocabulary := ((count_pairs data).map Prod.fst).zip
          (List.range ((count_pairs data).map Prod.fst).length) } := by
  cases hcp : count_pairs data with
  | nil => exact absurd hcp (count_pairs_ne_nil h)
  | cons a as => simp [buildVocabulary, hcp]

/-- Inversion of a successful vocabulary construction. -/
theorem buildVocabulary_ok_inv {data : List Char} {v : Vocab}
    (h : buildVocabulary data = Except.ok v) :
    v.chars = (count_pairs data).map Prod.fst ∧
    v.vocabulary_size = v.chars.length ∧
    v.vocabulary = v.chars.zip (List.range v.chars.length) := by
  rw [buildVocabulary] at h
  split at h
  · exact absurd h (by simp)
  · injection h with h
    subst h
    exact ⟨rfl, rfl, rfl⟩

/-- C9 (amended): `build_vocabulary` returns normally on every
nonempty corpus; only the empty corpus fails (with a `ValueError` at
the tuple unpacking, rather than yielding an empty vocabulary). -/
theorem buildVocabulary_ok_of_ne_nil (data : List Char) (h : data ≠ []) :
    ∃ v, buildVocabulary data = Except.ok v :=
  ⟨_, buildVocabulary_eq_ok h⟩

/-- Witness for `buildVocabulary_ok_of_ne_nil` at the one-character
corpus. -/
theorem buildVocabulary_ok_of_ne_nil_witness :
    (['k'] : List Char) ≠ [] ∧ ∃ v, buildVocabulary ['k'] = Except.ok v :=
  ⟨by decide, buildVocabulary_ok_of_ne_nil ['k'] (by decide)⟩

/-- Inversion of a successful batch computation: the stored fields are
exactly the ones the code computes, the configuration is positive, and
the truncated tensor has exactly `usable_length` elements. -/
theorem computeBatches_ok_inv {α : Type} {seq : List α} {bs sl : Nat} {p : Prepared α}
    (h : computeBatches seq bs sl = Except.ok p) :
    0 < bs * sl ∧
    p.batch_size = bs ∧ p.sequence_length = sl ∧
    p.batches_size = seq.length / (bs * sl) ∧
    0 < p.batches_size ∧
    p.tensor_data = seq.take (p.batches_size * bs * sl) ∧
    p.input_batches = npSplitCols p.batches_size (reshapeRows bs p.tensor_data) ∧
    p.target_batches = npSplitCols p.batches_size (reshapeRows bs (mkTargets p.tensor_data)) ∧
    p.tensor_data.length = p.batches_size * bs * sl := by
  rw [computeBatches] at h
  split at h
  · exact absurd h (by simp)
  · next hzero =>
    simp only [] at h
    split at h
    · exact absurd h (by simp)
    · next hbc =>
      injection h with h
      subst h
      refine ⟨Nat.pos_of_ne_zero hzero, rfl, rfl, rfl, Nat.pos_of_ne_zero hbc,
        rfl, rfl, rfl, ?_⟩
      have hle : seq.length / (bs * sl) * bs * sl ≤ seq.length := by
        rw [Nat.mul_assoc]
        exact Nat.div_mul_le_self seq.length (bs * sl)
      simp only [List.length_take]
      omega

/-- The target sequence is the input sequence rotated left by one:
interior positions hold their successor. -/
theorem mkTargets_getElem_of_lt (xs : List α) (i : Nat) (h : i + 1 < xs.length) :
    (mkTargets xs)[i]? = xs[i + 1]? := by
  rw [mkTargets, List.getElem?_append_left, List.getElem?_drop, Nat.add_comm]
  simp only [List.length_drop]
  omega

/-- The final position of the target sequence wraps around to the first
element of the input sequence. -/
theorem mkTargets_getElem_last (xs : List α) (hx : xs ≠ []) :
    (mkTargets xs)[xs.length - 1]? = xs[0]? := by
  have hlen : 0 < xs.length := List.length_pos.mpr hx
  rw [mkTargets, List.getElem?_append_right]
  · simp only [List.length_drop, Nat.sub_self]
    rw [List.getElem?_take]
    simp
  · simp only [List.length_drop]
    omega

/-- C2: for every prepared configuration with at least one batch, the
target sequence satisfies `target[i] = input[i+1]` at every position
`i` below `usable_length - 1`, and
`target[usable_length - 1] = input[0]` (wraparound to the first element
of the truncated sequence). -/
theorem target_sequence_shift (seq : List Nat) (batch_size sequence_length : Nat)
    (p : Prepared Nat)
    (h : computeBatches seq batch_size sequence_length = Except.ok p) :
    1 ≤ p.batches_size ∧
    (∀ i, i + 1 < p.tensor_data.length →
      (mkTargets p.tensor_data)[i]? = p.tensor_data[i + 1]?) ∧
    (mkTargets p.tensor_data)[p.tensor_data.length - 1]? = p.tensor_data[0]? := by
  obtain ⟨hpos, -, -, -, hbc, -, -, -, hlen⟩ := computeBatches_ok_inv h
  refine ⟨hbc, fun i hi => mkTargets_getElem_of_lt _ i hi, ?_⟩
  apply mkTargets_getElem_last
  intro hnil
  rw [hnil] at hlen
  simp only [List.length_nil] at hlen
  have h1 : 0 < p.batches_size * (batch_size * sequence_length) :=
    Nat.mul_pos hbc hpos
  rw [← Nat.mul_assoc] at h1
  omega

/-- Witness for `target_sequence_shift` at the ten-element corpus with
batch_size 1 and sequence_length 5. -/
theorem target_sequence_shift_witness :
    1 ≤ exPrepared.batches_size ∧
    (∀ i, i + 1 < exPrepared.tensor_data.length →
      (mkTargets exPrepared.tensor_data)[i]? = exPrepared.tensor_data[i + 1]?) ∧
    (mkTargets exPrepared.tensor_data)[exPrepared.tensor_data.length - 1]? =
      exPrepared.tensor_data[0]? :=
  target_sequence_shift [0, 1, 2, 3, 4, 5, 6, 7, 8, 9] 1 5 exPrepared (by decide)

/-- A reshape into `r` rows yields `r` rows. -/
theorem toRows_length (cols r : Nat) (xs : List α) : (toRows cols r xs).length = r := by
  induction r generalizing xs with
  | zero => rfl
  | succ r ih => rw [toRows]; simp [ih]

/-- Row `i` of a reshape is the `i`-th consecutive slice of length
`cols`. -/
theorem toRows_getElem (cols : Nat) (r : Nat) (xs : List α) (i : Nat) (hi : i < r) :
    (toRows cols r xs)[i]? = some ((xs.drop (i * cols)).take cols) := by
  induction r generalizing xs i with
  | zero => omega
  | succ r ih =>
      rw [toRows]
      cases i with
      | zero => simp
      | succ i =>
          rw [List.getElem?_cons_succ, ih (xs.drop cols) i (by omega), List.drop_drop]
          have : cols + i * cols = (i + 1) * cols := by ring
          rw [this]

/-- Flattening a reshape of an exactly fitting list recovers the
list (numpy reshape is row-major). -/
theorem toRows_flatten (cols : Nat) (r : Nat) (xs : List α) (hlen : xs.length = r * cols) :
    (toRows cols r xs).flatten = xs := by
  induction r generalizing xs with
  | zero =>
      have hx : xs = [] := List.length_eq_zero.mp (by omega)
      subst hx; rfl
  | succ r ih =>
      rw [toRows, List.flatten_cons]
      rw [ih (xs.drop cols) (by simp [hlen, Nat.succ_mul])]
      exact List.take_append_drop cols xs

/-- Splitting a row into `k` consecutive slices of width `w` and
flattening them back recovers the row. -/
theorem slices_flatten (w : Nat) (k : Nat) (row : List α) (hlen : row.length = k * w) :
    ((List.range k).map (fun b => (row.drop (b * w)).take w)).flatten = row := by
  induction k generalizing row with
  | zero =>
      have hx : row = [] := List.length_eq_zero.mp (by omega)
      subst hx; rfl
  | succ k ih =>
      have hstep : (List.range (k + 1)).map (fun b => (row.drop (b * w)).take w) =
          row.take w :: (List.range k).map (fun b => ((row.drop w).drop (b * w)).take w) := by
        rw [List.range_succ_eq_map, List.map_cons, List.map_map]
        congr 1
        · simp
        · apply List.map_congr_left
          intro b _
          simp only [Function.comp_apply, List.drop_drop]
          have harith : Nat.succ b * w = w + b * w := by
            rw [Nat.succ_mul]; omega
          rw [harith]
      rw [hstep, List.flatten_cons,
        ih (row.drop w) (by simp [hlen, Nat.succ_mul])]
      exact List.take_append_drop w row

/-- Reading every position of a list through `getD` rebuilds the
list. -/
theorem range_map_getD (l : List α) (d : α) :
    (List.range l.length).map (fun r => l.getD r d) = l := by
  induction l with
  | nil => rfl
  | cons x xs ih =>
      rw [List.length_cons, List.range_succ_eq_map, List.map_cons, List.map_map]
      have h1 : ((fun r => (x :: xs).getD r d) ∘ Nat.succ) = (fun r => xs.getD r d) := by
        funext r; simp
      rw [h1, ih]
      simp

/-- Splitting produces exactly `k` chunks. -/
theorem npSplitCols_length (k : Nat) (grid : List (List α)) :
    (npSplitCols k grid).length = k := by
  simp [npSplitCols]

/-- Indexing a mapped list of lists through `getD` inside bounds
commutes with the map. -/
theorem map_getD_of_lt (l : List (List α)) (f : List α → List α) (r : Nat)
    (hr : r < l.length) :
    (l.map f).getD r [] = f (l.getD r []) := by
  simp [List.getD_eq_getElem?_getD, List.getElem?_map, List.getElem?_eq_getElem hr]

/-- Concatenating the column chunks of a split grid in order rebuilds
the grid, provided every row has exactly `k * w` entries. -/
theorem concatCols_npSplitCols (k w : Nat) (grid : List (List α))
    (hk : 0 < k)
    (hhead : (grid.headD []).length = k * w)
    (hrow : ∀ row ∈ grid, row.length = k * w) :
    concatCols grid.length (npSplitCols k grid) = grid := by
  have hwidth : (grid.headD []).length / k = w := by
    rw [hhead, Nat.mul_div_cancel_left w hk]
  rw [npSplitCols]
  simp only [hwidth]
  rw [concatCols]
  have hrows : ∀ r ∈ List.range grid.length,
      ((((List.range k).map (fun b => grid.map (fun row => (row.drop (b * w)).take w))).map
        (fun b => b.getD r [])).flatten) = grid.getD r [] := by
    intro r hr
    rw [List.mem_range] at hr
    rw [List.map_map]
    have hinner : ∀ b ∈ List.range k,
        ((fun b => b.getD r []) ∘ fun b => grid.map (fun row => (row.drop (b * w)).take w)) b =
          ((grid.getD r []).drop (b * w)).take w := by
      intro b _
      simp only [Function.comp_apply]
      exact map_getD_of_lt grid _ r hr
    rw [List.map_congr_left hinner]
    apply slices_flatten
    apply hrow
    have hgd : grid.getD r [] = grid.get ⟨r, hr⟩ := by
      simp [List.getD_eq_getElem?_getD, List.getElem?_eq_getElem hr]
    rw [hgd]
    exact List.get_mem grid r hr
  rw [List.map_congr_left hrows, range_map_getD]

/-- C3: for every valid configuration with at least one batch,
concatenating all input batches in batch order (along the column axis,
inverting the split) and flattening row-major reconstructs exactly the
first `usable_length` elements of the encoded corpus. -/
theorem input_batches_reconstruct (seq : List Nat) (batch_size sequence_length : Nat)
    (p : Prepared Nat)
    (h : computeBatches seq batch_size sequence_length = Except.ok p) :
    (concatCols batch_size p.input_batches).flatten = p.tensor_data ∧
    p.tensor_data = seq.take (p.batches_size * batch_size * sequence_length) := by
  obtain ⟨hpos, -, -, -, hbc, htd, hib, -, hlen⟩ := computeBatches_ok_inv h
  refine ⟨?_, htd⟩
  have hbs : 0 < batch_size := by
    rcases Nat.eq_zero_or_pos batch_size with h0 | h0
    · rw [h0, Nat.zero_mul] at hpos; omega
    · exact h0
  have hcols : p.tensor_data.length / batch_size = p.batches_size * sequence_length := by
    rw [hlen]
    have hr : p.batches_size * batch_size * sequence_length =
        batch_size * (p.batches_size * sequence_length) := by ring
    rw [hr, Nat.mul_div_cancel_left _ hbs]
  have ht : p.tensor_data.length = batch_size * (p.batches_size * sequence_length) := by
    rw [hlen]; ring
  set grid := reshapeRows batch_size p.tensor_data with hgrid
  have hgridlen : grid.length = batch_size := by
    rw [hgrid, reshapeRows]; exact toRows_length _ _ _
  have hgetrow : ∀ i, i < batch_size →
      grid[i]? = some ((p.tensor_data.drop (i * (p.batches_size * sequence_length))).take
        (p.batches_size * sequence_length)) := by
    intro i hi
    rw [hgrid, reshapeRows, hcols]
    exact toRows_getElem _ _ _ _ hi
  have hslicelen : ∀ i, i < batch_size →
      ((p.tensor_data.drop (i * (p.batches_size * sequence_length))).take
        (p.batches_size * sequence_length)).length = p.batches_size * sequence_length := by
    intro i hi
    have hC1 : (i + 1) * (p.batches_size * sequence_length) ≤
        batch_size * (p.batches_size * sequence_length) :=
      Nat.mul_le_mul_right _ hi
    rw [List.length_take, List.length_drop]
    apply Nat.min_eq_left
    apply Nat.le_sub_of_add_le
    rw [Nat.add_comm, ht]
    calc i * (p.batches_size * sequence_length) + p.batches_size * sequence_length
        = (i + 1) * (p.batches_size * sequence_length) := (Nat.succ_mul _ _).symm
      _ ≤ batch_size * (p.batches_size * sequence_length) := hC1
  have hrowlen : ∀ row ∈ grid, row.length = p.batches_size * sequence_length := by
    intro row hmem
    obtain ⟨i, hi, hrweq⟩ := List.mem_iff_getElem.mp hmem
    rw [hgridlen] at hi
    have := hgetrow i hi
    rw [List.getElem?_eq_getElem (by rw [hgridlen]; exact hi)] at this
    injection this with this
    rw [← hrweq, this]
    exact hslicelen i hi
  have hheadlen : (grid.headD []).length = p.batches_size * sequence_length := by
    obtain ⟨m, hm⟩ : ∃ m, batch_size = m + 1 := ⟨batch_size - 1, by omega⟩
    rw [hgrid, reshapeRows, hcols, hm, toRows, List.headD_cons]
    have hC1 : (0 + 1) * (p.batches_size * sequence_length) ≤
        batch_size * (p.batches_size * sequence_length) :=
      Nat.mul_le_mul_right _ (by omega)
    rw [List.length_take]
    apply Nat.min_eq_left
    rw [ht]
    calc p.batches_size * sequence_length
        = (0 + 1) * (p.batches_size * sequence_length) := by ring
      _ ≤ batch_size * (p.batches_size * sequence_length) := hC1
  have hsplit : concatCols batch_size p.input_batches = grid := by
    rw [hib, ← hgridlen]
    exact concatCols_npSplitCols p.batches_size sequence_length grid hbc hheadlen hrowlen
  rw [hsplit, hgrid, reshapeRows, hcols]
  apply toRows_flatten
  exact ht

/-- Witness for `input_batches_reconstruct` at the ten-element corpus
with batch_size 1 and sequence_length 5. -/
theorem input_batches_reconstruct_witness :
    (concatCols 1 exPrepared.input_batches).flatten = exPrepared.tensor_data ∧
    exPrepared.tensor_data =
      ([0, 1, 2, 3, 4, 5, 6, 7, 8, 9] : List Nat).take (exPrepared.batches_size * 1 * 5) :=
  input_batches_reconstruct [0, 1, 2, 3, 4, 5, 6, 7, 8, 9] 1 5 exPrepared (by decide)

/-- The suffix view of a traversal agrees with the step semantics of
the generator: the traversal yields the pair at the cursor and
continues from the advanced cursor, stopping exactly when the zipped
list is exhausted. -/
theorem runTraversal_eq_step (g : GenCursor α) :
    runTraversal g = (match genNext g with
      | some (pair, g2) => pair :: runTraversal g2
      | none => []) := by
  rw [runTraversal, genNext]
  cases hp : (pairsOf g.prepared)[g.pointer]? with
  | none =>
      rw [List.getElem?_eq_none_iff] at hp
      simp [List.drop_eq_nil_of_le hp]
  | some pair =>
      obtain ⟨hlt, heq⟩ := List.getElem?_eq_some_iff.mp hp
      simp only [runTraversal]
      rw [List.drop_eq_getElem_cons hlt, heq]

/-- C8: for every prepared state, the batch sequence yielded by a fresh
generator is finite with exactly `batches_size` items, item `b` is the
pair of input batch `b` and target batch `b`, and any generator over
the same prepared data, once reset, traverses the identical ordered
sequence again: no exhaustion state survives a reset. -/
theorem data_generator_restartable (seq : List Nat) (batch_size sequence_length : Nat)
    (p : Prepared Nat)
    (h : computeBatches seq batch_size sequence_length = Except.ok p) :
    (runTraversal (freshGen p)).length = p.batches_size ∧
    (∀ b, b < p.batches_size →
      (runTraversal (freshGen p))[b]? =
        some (p.input_batches.getD b [], p.target_batches.getD b [])) ∧
    (∀ g : GenCursor Nat, g.prepared = p →
      runTraversal (resetPointer g) = runTraversal (freshGen p)) := by
  obtain ⟨-, -, -, -, -, -, hib, htb, -⟩ := computeBatches_ok_inv h
  have hilen : p.input_batches.length = p.batches_size := by
    rw [hib]; exact npSplitCols_length _ _
  have htlen : p.target_batches.length = p.batches_size := by
    rw [htb]; exact npSplitCols_length _ _
  refine ⟨?_, fun b hb => ?_, fun g hg => ?_⟩
  · rw [runTraversal]
    simp [freshGen, pairsOf, hilen, htlen]
  · rw [runTraversal]
    simp only [freshGen, List.drop_zero]
    rw [pairsOf]
    apply List.getElem?_zip_eq_some.mpr
    constructor
    · rw [List.getElem?_eq_getElem (by omega)]
      simp [List.getD_eq_getElem?_getD, List.getElem?_eq_getElem (show b < p.input_batches.length by omega)]
    · rw [List.getElem?_eq_getElem (by omega)]
      simp [List.getD_eq_getElem?_getD, List.getElem?_eq_getElem (show b < p.target_batches.length by omega)]
  · rw [runTraversal, runTraversal, resetPointer, freshGen]
    simp [hg]

/-- Witness for `data_generator_restartable` at the ten-element corpus
with batch_size 1 and sequence_length 5. -/
theorem data_generator_restartable_witness :
    (runTraversal (freshGen exPrepared)).length = exPrepared.batches_size ∧
    (∀ b, b < exPrepared.batches_size →
      (runTraversal (freshGen exPrepared))[b]? =
        some (exPrepared.input_batches.getD b [], exPrepared.target_batches.getD b [])) ∧
    (∀ g : GenCursor Nat, g.prepared = exPrepared →
      runTraversal (resetPointer g) = runTraversal (freshGen exPrepared)) :=
  data_generator_restartable [0, 1, 2, 3, 4, 5, 6, 7, 8, 9] 1 5 exPrepared (by decide)

/-- Membership in the first-occurrence pass: exactly the characters of
the remaining input not yet seen. -/
theorem mem_firstUniquesAux (x : Char) : ∀ (l seen : List Char),
    x ∈ firstUniquesAux seen l ↔ x ∈ l ∧ x ∉ seen := by
  intro l
  induction l with
  | nil => intro seen; simp [firstUniquesAux]
  | cons c rest ih =>
      intro seen
      rw [firstUniquesAux]
      by_cases hc : c ∈ seen
      · rw [if_pos hc, ih]
        constructor
        · rintro ⟨hx, hns⟩
          exact ⟨List.mem_cons_of_mem _ hx, hns⟩
        · rintro ⟨hx, hns⟩
          rcases List.mem_cons.mp hx with rfl | hx2
          · exact absurd hc hns
          · exact ⟨hx2, hns⟩
      · rw [if_neg hc]
        constructor
        · intro hx
          rcases List.mem_cons.mp hx with rfl | hx2
          · exact ⟨List.mem_cons_self _ _, hc⟩
          · obtain ⟨hxr, hxs⟩ := (ih _).mp hx2
            refine ⟨List.mem_cons_of_mem _ hxr, fun hxseen => hxs ?_⟩
            exact List.mem_cons_of_mem _ hxseen
        · rintro ⟨hx, hns⟩
          rcases List.mem_cons.mp hx with rfl | hx2
          · exact List.mem_cons_self _ _
          · by_cases hxc : x = c
            · subst hxc; exact List.mem_cons_self _ _
            · refine List.mem_cons_of_mem _ ((ih _).mpr ⟨hx2, fun hmem => ?_⟩)
              rcases List.mem_cons.mp hmem with h1 | h1
              · exact hxc h1
              · exact hns h1

/-- The first-occurrence pass never emits a character twice. -/
theorem nodup_firstUniquesAux : ∀ (l seen : List Char),
    (firstUniquesAux seen l).Nodup := by
  intro l
  induction l with
  | nil => intro seen; simp [firstUniquesAux]
  | cons c rest ih =>
      intro seen
      rw [firstUniquesAux]
      by_cases hc : c ∈ seen
      · rw [if_pos hc]; exact ih _
      · rw [if_neg hc]
        rw [List.nodup_cons]
        refine ⟨fun hmem => ?_, ih _⟩
        exact ((mem_firstUniquesAux c rest _).mp hmem).2 (List.mem_cons_self _ _)

/-- The distinct characters in first-appearance order are exactly the
characters of the corpus. -/
theorem mem_firstUniques (x : Char) (data : List Char) :
    x ∈ firstUniques data ↔ x ∈ data := by
  rw [firstUniques, mem_firstUniquesAux]
  simp

/-- The distinct characters in first-appearance order carry no
duplicate. -/
theorem nodup_firstUniques (data : List Char) : (firstUniques data).Nodup :=
  nodup_firstUniquesAux data []

/-- The keys of the counter items are the distinct characters in
first-appearance order. -/
theorem map_fst_counterItems (data : List Char) :
    (counterItems data).map Prod.fst = firstUniques data := by
  rw [counterItems, List.map_map]
  have hcomp : Prod.fst ∘ (fun c => (c, data.count c)) = id := rfl
  rw [hcomp, List.map_id]

/-- The sorted pair list is a permutation of the counter items. -/
theorem count_pairs_perm (data : List Char) :
    (count_pairs data).Perm (counterItems data) :=
  List.perm_insertionSort countLE (counterItems data)

/-- The character list read off the sorted pairs is a permutation of
the distinct characters of the corpus. -/
theorem chars_perm_firstUniques (data : List Char) :
    ((count_pairs data).map Prod.fst).Perm (firstUniques data) := by
  rw [← map_fst_counterItems]
  exact (count_pairs_perm data).map Prod.fst

/-- The character list read off the sorted pairs has no duplicate. -/
theorem chars_nodup (data : List Char) :
    ((count_pairs data).map Prod.fst).Nodup :=
  (chars_perm_firstUniques data).nodup_iff.mpr (nodup_firstUniques data)

/-- First-match lookup by key in an association list with
pairwise-distinct keys finds any member pair with that key. -/
theorem find?_key_of_mem {ps : List (Char × Nat)}
    (hnd : (ps.map Prod.fst).Nodup) {c : Char} {n : Nat} (hmem : (c, n) ∈ ps) :
    ps.find? (fun p => p.1 == c) = some (c, n) := by
  induction ps with
  | nil => simp at hmem
  | cons q qs ih =>
      rw [List.map_cons, List.nodup_cons] at hnd
      rcases List.mem_cons.mp hmem with heq | htail
      · rw [← heq]
        rw [List.find?_cons_of_pos _ (by simp)]
      · have hc : c ∈ qs.map Prod.fst := List.mem_map.mpr ⟨(c, n), htail, rfl⟩
        have hq : ¬ (q.1 == c) = true := by
          simp only [beq_iff_eq]
          intro hqe
          exact hnd.1 (hqe ▸ hc)
        have hfind : List.find? (fun p => p.1 == c) (q :: qs) =
            List.find? (fun p => p.1 == c) qs := List.find?_cons_of_neg qs hq
        rw [hfind]
        exact ih hnd.2 htail

/-- First-match lookup by value in an association list with
pairwise-distinct values finds any member pair with that value. -/
theorem find?_snd_of_mem {ps : List (Char × Nat)}
    (hnd : (ps.map Prod.snd).Nodup) {c : Char} {n : Nat} (hmem : (c, n) ∈ ps) :
    ps.find? (fun p => p.2 == n) = some (c, n) := by
  induction ps with
  | nil => simp at hmem
  | cons q qs ih =>
      rw [List.map_cons, List.nodup_cons] at hnd
      rcases List.mem_cons.mp hmem with heq | htail
      · rw [← heq]
        rw [List.find?_cons_of_pos _ (by simp)]
      · have hc : n ∈ qs.map Prod.snd := List.mem_map.mpr ⟨(c, n), htail, rfl⟩
        have hq : ¬ (q.2 == n) = true := by
          simp only [beq_iff_eq]
          intro hqe
          exact hnd.1 (hqe ▸ hc)
        have hfind : List.find? (fun p => p.2 == n) (q :: qs) =
            List.find? (fun p => p.2 == n) qs := List.find?_cons_of_neg qs hq
        rw [hfind]
        exact ih hnd.2 htail

/-- Looking up the `i`-th character of a duplicate-free character list
in the dict built by `dict(zip(chars, range(len(chars))))` yields `i`. -/
theorem dictGet_zip_range (cs : List Char) (hnd : cs.Nodup) (i : Nat)
    (hi : i < cs.length) :
    dictGet (cs.zip (List.range cs.length)) (cs.get ⟨i, hi⟩) = some i := by
  have hkeys : ((cs.zip (List.range cs.length)).map Prod.fst).Nodup := by
    rw [List.map_fst_zip _ _ (by simp)]
    exact hnd
  have hz : (cs.zip (List.range cs.length))[i]? = some (cs.get ⟨i, hi⟩, i) := by
    apply List.getElem?_zip_eq_some.mpr
    refine ⟨?_, List.getElem?_range hi⟩
    rw [List.getElem?_eq_getElem hi]
    rfl
  have hmem : (cs.get ⟨i, hi⟩, i) ∈ cs.zip (List.range cs.length) :=
    List.getElem?_mem hz
  rw [dictGet, find?_key_of_mem hkeys hmem]
  rfl

/-- C4 (counterexample): on the empty corpus, `build_vocabulary`
produces no mapping at all — the result is the `ValueError` raised at
the tuple unpacking, not an `Except.ok` carrying a vocabulary — so the
claim fails for the empty corpus. -/
theorem buildVocabulary_empty_no_mapping :
    buildVocabulary [] = Except.error
      (PyExc.valueError "not enough values to unpack (expected 2, got 0)") ∧
    (count_pairs ([] : List Char)).length = 0 :=
  ⟨rfl, rfl⟩

/-- C4 (amended): for every nonempty corpus, `build_vocabulary`
produces a vocabulary whose size is the number of distinct corpus
characters, whose codes are exactly the contiguous range
`[0, vocabulary_size)` with no duplicate or gap over duplicate-free
keys, and which assigns code `i` to the `i`-th character of the sorted
order; the sorted order is descending in frequency, lists each distinct
character with its true count, and breaks ties by first-appearance
order (stable sort). -/
theorem build_vocabulary_correct (data : List Char) (h : data ≠ []) :
    ∃ v, buildVocabulary data = Except.ok v ∧
      v.vocabulary_size = data.toFinset.card ∧
      v.vocabulary.map Prod.snd = List.range v.vocabulary_size ∧
      (v.vocabulary.map Prod.fst).Nodup ∧
      v.chars = (count_pairs data).map Prod.fst ∧
      (∀ (i : Nat) (hi : i < v.chars.length),
        dictGet v.vocabulary (v.chars.get ⟨i, hi⟩) = some i) ∧
      (count_pairs data).Pairwise countLE ∧
      (∀ q ∈ count_pairs data, q.2 = data.count q.1) ∧
      (∀ a b : Char × Nat, a.2 = b.2 → List.Sublist [a, b] (counterItems data) →
        List.Sublist [a, b] (count_pairs data)) := by
  refine ⟨_, buildVocabulary_eq_ok h, ?_, ?_, ?_, rfl, ?_, ?_, ?_, ?_⟩
  · have hlen1 : ((count_pairs data).map Prod.fst).length = (firstUniques data).length :=
      (chars_perm_firstUniques data).length_eq
    have hfin : data.toFinset = (firstUniques data).toFinset := by
      ext x
      simp [List.mem_toFinset, mem_firstUniques]
    rw [hfin, List.toFinset_card_of_nodup (nodup_firstUniques data)]
    exact hlen1
  · exact List.map_snd_zip _ _ (by simp)
  · rw [List.map_fst_zip _ _ (by simp)]
    exact chars_nodup data
  · intro i hi
    exact dictGet_zip_range _ (chars_nodup data) i hi
  · exact List.sorted_insertionSort countLE (counterItems data)
  · intro q hq
    have hq2 : q ∈ counterItems data := (count_pairs_perm data).mem_iff.mp hq
    rw [counterItems] at hq2
    obtain ⟨c, -, rfl⟩ := List.mem_map.mp hq2
    rfl
  · intro a b hab hsub
    exact List.pair_sublist_insertionSort (show countLE a b from le_of_eq hab.symm) hsub

/-- Witness for `build_vocabulary_correct` at the corpus "aba". -/
theorem build_vocabulary_correct_witness :
    (['a', 'b', 'a'] : List Char) ≠ [] ∧
    (∃ v, buildVocabulary ['a', 'b', 'a'] = Except.ok v ∧
      v.vocabulary_size = (['a', 'b', 'a'] : List Char).toFinset.card ∧
      v.vocabulary.map Prod.snd = List.range v.vocabulary_size ∧
      (v.vocabulary.map Prod.fst).Nodup ∧
      v.chars = (count_pairs ['a', 'b', 'a']).map Prod.fst ∧
      (∀ (i : Nat) (hi : i < v.chars.length),
        dictGet v.vocabulary (v.chars.get ⟨i, hi⟩) = some i) ∧
      (count_pairs ['a', 'b', 'a']).Pairwise countLE ∧
      (∀ q ∈ count_pairs ['a', 'b', 'a'], q.2 = (['a', 'b', 'a'] : List Char).count q.1) ∧
      (∀ a b : Char × Nat, a.2 = b.2 → List.Sublist [a, b] (counterItems ['a', 'b', 'a']) →
        List.Sublist [a, b] (count_pairs ['a', 'b', 'a']))) :=
  ⟨by decide, build_vocabulary_correct ['a', 'b', 'a'] (by decide)⟩

/-- C7: for every corpus whose vocabulary construction succeeds,
decoding the encoded sequence through the inverse vocabulary mapping
reproduces the corpus exactly, and likewise for every truncation of
the encoded sequence. -/
theorem encode_decode_roundtrip (data : List Char) (v : Vocab)
    (h : buildVocabulary data = Except.ok v) :
    (encode v.vocabulary data).map (fun o => o.bind (inverseGet v.vocabulary)) =
      data.map some ∧
    (∀ n, ((encode v.vocabulary data).take n).map
      (fun o => o.bind (inverseGet v.vocabulary)) = (data.take n).map some) := by
  obtain ⟨hchars, hsize, hvocab⟩ := buildVocabulary_ok_inv h
  have hnd : v.chars.Nodup := by
    rw [hchars]; exact chars_nodup data
  have hkeys : (v.vocabulary.map Prod.fst).Nodup := by
    rw [hvocab, List.map_fst_zip _ _ (by simp)]
    exact hnd
  have hsnds : (v.vocabulary.map Prod.snd).Nodup := by
    rw [hvocab, List.map_snd_zip _ _ (by simp)]
    exact List.nodup_range _
  have hmain : (encode v.vocabulary data).map
      (fun o => o.bind (inverseGet v.vocabulary)) = data.map some := by
    rw [encode, List.map_map]
    apply List.map_congr_left
    intro c hc
    have hcc : c ∈ v.chars := by
      rw [hchars]
      exact (chars_perm_firstUniques data).mem_iff.mpr ((mem_firstUniques c data).mpr hc)
    obtain ⟨i, hi, hieq⟩ := List.mem_iff_getElem.mp hcc
    have hz : v.vocabulary[i]? = some (v.chars.get ⟨i, hi⟩, i) := by
      rw [hvocab]
      apply List.getElem?_zip_eq_some.mpr
      refine ⟨?_, List.getElem?_range hi⟩
      rw [List.getElem?_eq_getElem hi]
      rfl
    have hmem : (v.chars.get ⟨i, hi⟩, i) ∈ v.vocabulary := List.getElem?_mem hz
    have hget : dictGet v.vocabulary c = some i := by
      rw [← hieq]
      show dictGet v.vocabulary (v.chars.get ⟨i, hi⟩) = some i
      rw [dictGet, find?_key_of_mem hkeys hmem]
      rfl
    have hinv : inverseGet v.vocabulary i = some c := by
      rw [← hieq]
      show inverseGet v.vocabulary i = some (v.chars.get ⟨i, hi⟩)
      rw [inverseGet, find?_snd_of_mem hsnds hmem]
      rfl
    simp only [Function.comp_apply]
    rw [hget]
    simp [hinv]
  refine ⟨hmain, fun n => ?_⟩
  rw [List.map_take, hmain, ← List.map_take]

/-- Witness for `encode_decode_roundtrip` at the corpus "ab". -/
theorem encode_decode_roundtrip_witness :
    (encode vocabEx.vocabulary ['a', 'b']).map
      (fun o => o.bind (inverseGet vocabEx.vocabulary)) =
      (['a', 'b'] : List Char).map some ∧
    (∀ n, ((encode vocabEx.vocabulary ['a', 'b']).take n).map
      (fun o => o.bind (inverseGet vocabEx.vocabulary)) =
      ((['a', 'b'] : List Char).take n).map some) :=
  encode_decode_roundtrip ['a', 'b'] vocabEx (by decide)

/-- C10 (counterexample): with vocabulary containing only the
character a and corpus "ab", `encode` does not fail: `dict.get` yields
`None` for the absent character b, so an encoded sequence is produced
with a `None` hole rather than any exception. -/
theorem encode_missing_char_yields_none :
    encode [('a', 0)] ['a', 'b'] = [some 0, none] := by
  decide

/-- C10 (amended): `encode` never raises: it returns a sequence of one
entry per corpus character, the entry at position `i` being
`vocabulary.get` of character `i` — a real code when the character is
present, `None` when it is absent; when every corpus character has a
code in the vocabulary, every entry of the encoded sequence is a real
code. -/
theorem encode_entries (vocab : List (Char × Nat)) (data : List Char) :
    (encode vocab data).length = data.length ∧
    (∀ (i : Nat) (hi : i < data.length),
      (encode vocab data)[i]? = some (dictGet vocab (data.get ⟨i, hi⟩))) ∧
    ((∀ c ∈ data, ∃ code, (c, code) ∈ vocab) →
      ∀ o ∈ encode vocab data, o.isSome) := by
  refine ⟨by simp [encode], fun i hi => ?_, fun hall o ho => ?_⟩
  · simp [encode, List.getElem?_map, List.getElem?_eq_getElem hi]
  · rw [encode, List.mem_map] at ho
    obtain ⟨c, hc, rfl⟩ := ho
    obtain ⟨code, hcode⟩ := hall c hc
    have hsome : (List.find? (fun p => p.1 == c) vocab).isSome :=
      List.find?_isSome.mpr ⟨(c, code), hcode, by simp⟩
    rw [dictGet]
    cases hf : List.find? (fun p => p.1 == c) vocab with
    | none => rw [hf] at hsome; simp at hsome
    | some pr => simp

/-- Witness for `encode_entries` at a one-pair vocabulary and
one-character corpus. -/
theorem encode_entries_witness :
    (encode [('a', 0)] ['a']).length = (['a'] : List Char).length ∧
    (∀ (i : Nat) (hi : i < (['a'] : List Char).length),
      (encode [('a', 0)] ['a'])[i]? =
        some (dictGet [('a', 0)] ((['a'] : List Char).get ⟨i, hi⟩))) ∧
    ((∀ c ∈ (['a'] : List Char), ∃ code, (c, code) ∈ [('a', 0)]) →
      ∀ o ∈ encode [('a', 0)] ['a'], o.isSome) :=
  encode_entries [('a', 0)] ['a']

end Rapnet
